import Mathlib

/-!
Shallow embedding of the `tangled` dependency-graph library: the entity
model and graph store of `types.go` and the four renderers of the renderer
source file, together with proofs of the specification claims about them.

Modelling conventions:
* Go strings are modelled as `List Char`.  Go compares strings byte-wise on
  their UTF-8 encoding, which coincides with code-point lexicographic order,
  i.e. with the `LinearOrder` on `List Char`.
* Go maps are modelled as association lists whose observable behaviour is
  key lookup (with the Go zero value returned for a missing key); writing to
  a key overwrites its stored value in place.
* `sort.Slice` / `sort.Strings` produce the unique `≤`-sorted permutation of
  the input whenever the comparison key is duplicate-free (respectively for
  plain string sorting, where the sorted permutation of the multiset is
  unique); they are modelled by `List.insertionSort`.
* The Mermaid renderer ranges over a Go map when emitting its node lines;
  that loop is modelled by an explicit `order` parameter ranging over the
  permutations of the map's keys, so that every possible run of the Go code
  is one instantiation of the model.
* The recursive plaintext tree renderer is modelled fuel-indexed
  (`renderNodeF`); termination of the Go recursion is expressed by the
  theorem that all fuels at least `fuelBound` yield the same result.
-/

namespace Tangled

/-- Go strings, as their lists of characters. -/
abbrev Str : Type := List Char

/-- Embed a Lean string literal into the model. -/
def S (s : String) : Str := s.data

/-- `Module` from types.go: a Go module with its path and version. -/
structure Module where
  Path : Str
  Version : Str
deriving DecidableEq, Inhabited

/-- `Module.String` from types.go: the canonical string of a module,
`path` if the version is empty and `path@version` otherwise. -/
def Module.String (m : Module) : Str :=
  if m.Version = [] then m.Path else m.Path ++ '@' :: m.Version

/-- `Dependency` from types.go: a dependency edge between two modules.
(`From` and `To` keep the Go field names; `from` is a Lean keyword.) -/
structure Dependency where
  From : Module
  To : Module
deriving DecidableEq

/-- `DependencyGraph` from types.go: the root module, the ordered edge
list, and the cached adjacency `tree` (a `map[string][]string` in Go,
modelled as an association list). -/
structure DependencyGraph where
  MainModule : Module
  Dependencies : List Dependency
  tree : List (Str × List Str)
deriving DecidableEq

/-- `NewDependencyGraph` from types.go. -/
def NewDependencyGraph (mainModule : Module) : DependencyGraph :=
  { MainModule := mainModule, Dependencies := [], tree := [] }

/-- `AddDependency` from types.go: append the edge and invalidate the
cached tree. -/
def AddDependency (dg : DependencyGraph) (fm toM : Module) : DependencyGraph :=
  { dg with
    Dependencies := dg.Dependencies ++ [{ From := fm, To := toM }]
    tree := [] }

/-- `GetDirectDependencies` from types.go: one pass over the edge list,
appending `dep.To` whenever `dep.From` matches by canonical string. -/
def GetDirectDependencies (dg : DependencyGraph) (module : Module) : List Module :=
  dg.Dependencies.foldl
    (fun deps dep => if dep.From.String = module.String then deps ++ [dep.To] else deps) []

/-- Write `v` under key `k` in a `map[string]Module`, overwriting any
previous value. -/
def setInsert (l : List (Str × Module)) (k : Str) (v : Module) : List (Str × Module) :=
  match l with
  | [] => [(k, v)]
  | p :: t => if p.1 = k then (k, v) :: t else p :: setInsert t k v

/-- The `moduleSet` map built inside `GetAllModules` (types.go): the root
module keyed by its canonical string, then for every edge its `From` and
`To` modules keyed by their canonical strings. -/
def moduleSetPairs (dg : DependencyGraph) : List (Str × Module) :=
  dg.Dependencies.foldl
    (fun acc dep => setInsert (setInsert acc dep.From.String dep.From) dep.To.String dep.To)
    (setInsert [] dg.MainModule.String dg.MainModule)

/-- The comparison used by `sort.Slice` in `GetAllModules`: order modules
by their canonical strings. -/
def modLe (a b : Module) : Prop := a.String ≤ b.String

instance : DecidableRel modLe := fun a b => inferInstanceAs (Decidable (a.String ≤ b.String))

instance : IsTotal Module modLe := ⟨fun a b => le_total a.String b.String⟩

instance : IsTrans Module modLe := ⟨fun _ _ _ h₁ h₂ => le_trans h₁ h₂⟩

/-- `GetAllModules` from types.go: the values of the `moduleSet` map,
sorted ascending by canonical string.  (Go iterates the map in an
unspecified order before sorting; the sort makes the result independent of
that order because the canonical strings are the map keys, hence
duplicate-free — this independence is proved as part of claim C1.) -/
def GetAllModules (dg : DependencyGraph) : List Module :=
  List.insertionSort modLe ((moduleSetPairs dg).map Prod.snd)

/-- One step of `buildTree` (types.go): append `v` to the adjacency list
of `k`, creating the entry when absent (Go creates the empty slice and
appends to it). -/
def treeAppend (t : List (Str × List Str)) (k v : Str) : List (Str × List Str) :=
  match t with
  | [] => [(k, [v])]
  | p :: rest => if p.1 = k then (k, p.2 ++ [v]) :: rest else p :: treeAppend rest k v

/-- The tree built by `buildTree` from scratch: one pass over the edge
list. -/
def buildTreePure (deps : List Dependency) : List (Str × List Str) :=
  deps.foldl (fun t dep => treeAppend t dep.From.String dep.To.String) []

/-- `buildTree` from types.go: rebuild the cached tree only when it is
empty (`len(dg.tree) > 0` guard). -/
def buildTree (dg : DependencyGraph) : DependencyGraph :=
  if dg.tree.length > 0 then dg else { dg with tree := buildTreePure dg.Dependencies }

/-- `GetTree` from types.go: build (if needed) and return the cached tree
together with the updated graph. -/
def GetTree (dg : DependencyGraph) : List (Str × List Str) × DependencyGraph :=
  let dg' := buildTree dg
  (dg'.tree, dg')

/-- Go map lookup on the adjacency tree; a missing key yields `nil`,
i.e. the empty list. -/
def treeLookup (t : List (Str × List Str)) (k : Str) : List Str :=
  match t with
  | [] => []
  | p :: rest => if p.1 = k then p.2 else treeLookup rest k

/-- The mutating operations a client can perform on a graph (used to state
the cache-freshness invariant of claim C5). -/
inductive GraphOp where
  | add (fm toM : Module)
  | readTree
deriving DecidableEq

/-- Apply one operation to the graph state. -/
def applyOp (dg : DependencyGraph) : GraphOp → DependencyGraph
  | .add fm toM => AddDependency dg fm toM
  | .readTree => (GetTree dg).2

/-- Apply a sequence of operations to the graph state. -/
def applyOps (dg : DependencyGraph) (ops : List GraphOp) : DependencyGraph :=
  ops.foldl applyOp dg

/-- `strings.ReplaceAll(s, q, eq)` with the one-character pattern `"` and
replacement `\"`, as used by the Mermaid and Graphviz label escaping. -/
def escapeQuote (s : Str) : Str :=
  s.flatMap (fun c => if c = '"' then ['\\', '"'] else [c])

/-- `strings.ReplaceAll(s, b, bb)` with the one-character pattern `\` and
replacement `\\`, as used by the HTML label escaping. -/
def escapeBackslash (s : Str) : Str :=
  s.flatMap (fun c => if c = '\\' then ['\\', '\\'] else [c])

/-- `strings.ReplaceAll` with a one-character pattern and a one-character
replacement, as used by `sanitizeNodeID`. -/
def replaceChar (s : Str) (a b : Char) : Str := s.map (fun c => if c = a then b else c)

/-- `GraphvizRenderer.sanitizeNodeID`: replace `/`, `.`, `@`, `-` by `_`,
in that order of `ReplaceAll` calls. -/
def sanitizeNodeID (s : Str) : Str :=
  replaceChar (replaceChar (replaceChar (replaceChar s '/' '_') '.' '_') '@' '_') '-' '_'

/-- One node-declaration line of `GraphvizRenderer.Render`; the main module
additionally carries the highlighting attributes. -/
def graphvizNodeLine (dg : DependencyGraph) (m : Module) : Str :=
  let moduleStr := m.String
  let escapedLabel := escapeQuote moduleStr
  let nodeID := sanitizeNodeID moduleStr
  if moduleStr = dg.MainModule.String then
    S "    \"" ++ nodeID ++ S "\" [label=\"" ++ escapedLabel ++
      S "\", fillcolor=lightblue, style=\"rounded,filled\"];\n"
  else
    S "    \"" ++ nodeID ++ S "\" [label=\"" ++ escapedLabel ++ S "\"];\n"

/-- One edge line of `GraphvizRenderer.Render`. -/
def graphvizEdgeLine (dep : Dependency) : Str :=
  S "    \"" ++ sanitizeNodeID dep.From.String ++ S "\" -> \"" ++
    sanitizeNodeID dep.To.String ++ S "\";\n"

/-- `GraphvizRenderer.Render`: header, layout directive, default node
style, one node line per module of `GetAllModules` in order, one edge line
per dependency in order, closing brace. -/
def GraphvizRender (dg : DependencyGraph) : Str :=
  S "digraph dependencies \x7b\n" ++ S "    rankdir=LR;\n" ++
    S "    node [shape=box, style=rounded];\n" ++
    ((GetAllModules dg).map (graphvizNodeLine dg)).flatten ++
    (dg.Dependencies.map graphvizEdgeLine).flatten ++ S "\x7d\n"

/-- Write `v` under key `k` in the Mermaid `map[string]string` of node
identifiers, overwriting any previous value. -/
def strInsert (l : List (Str × Str)) (k v : Str) : List (Str × Str) :=
  match l with
  | [] => [(k, v)]
  | p :: t => if p.1 = k then (k, v) :: t else p :: strInsert t k v

/-- Go map lookup on the Mermaid identifier map; a missing key yields the
zero value, the empty string. -/
def strLookup (l : List (Str × Str)) (k : Str) : Str :=
  match l with
  | [] => []
  | p :: t => if p.1 = k then p.2 else strLookup t k

/-- The decimal rendering used by `fmt.Sprintf` verbs `%d` (via `N%d` and
the node/link JSON fragments). -/
def natToStr (n : Nat) : Str := (Nat.repr n).data

/-- The `nodeIDs` map of `MermaidRenderer.Render`: iterate
`graph.GetAllModules()` assigning `N1`, `N2`, … in order. -/
def mermaidIDs (dg : DependencyGraph) : List (Str × Str) :=
  ((GetAllModules dg).foldl
    (fun acc m => (strInsert acc.1 m.String (S "N" ++ natToStr acc.2), acc.2 + 1))
    ([], 1)).1

/-- One Mermaid node-definition line. -/
def mermaidNodeLine (ids : List (Str × Str)) (moduleStr : Str) : Str :=
  S "    " ++ strLookup ids moduleStr ++ S "[\"" ++ escapeQuote moduleStr ++ S "\"]\n"

/-- One Mermaid edge line. -/
def mermaidEdgeLine (ids : List (Str × Str)) (dep : Dependency) : Str :=
  S "    " ++ strLookup ids dep.From.String ++ S " --> " ++
    strLookup ids dep.To.String ++ S "\n"

/-- `MermaidRenderer.Render`.  The node-definition loop ranges over the Go
map `nodeIDs`, so its emission order is an unspecified permutation of the
map's keys; `order` is that permutation, making every possible run of the
Go code one instantiation of the model. -/
def MermaidRender (dg : DependencyGraph) (order : List Str) : Str :=
  let ids := mermaidIDs dg
  S "graph TD\n" ++ (order.map (mermaidNodeLine ids)).flatten ++
    (dg.Dependencies.map (mermaidEdgeLine ids)).flatten

/-- The escaping applied by `HTMLRenderer.generateNodes` to a label, in
the code's order: first `"` becomes `\"`, then `\` becomes `\\`. -/
def hEscape (s : Str) : Str := escapeBackslash (escapeQuote s)

/-- Modelled from the spec (§4.4 node-link serializer): the escaping the
spec prescribes for the `name` field, with the backslash escaped first so
that escaping a literal `"` cannot double-escape.  Present only to compare
against `hEscape`, which is translated from the code. -/
def specNameEscape (s : Str) : Str := escapeQuote (escapeBackslash s)

/-- One node entry of `HTMLRenderer.generateNodes`: index, escaped name,
and group 2 for the main module, 1 otherwise. -/
def nodeEntry (dg : DependencyGraph) (i : Nat) (m : Module) : Str :=
  let moduleStr := m.String
  let escapedLabel := hEscape moduleStr
  let group : Nat := if moduleStr = dg.MainModule.String then 2 else 1
  S "\x7b\"id\": " ++ natToStr i ++ S ", \"name\": \"" ++ escapedLabel ++
    S "\", \"group\": " ++ natToStr group ++ S "\x7d"

/-- The `nodes` slice of `HTMLRenderer.generateNodes`: one entry per
module of `GetAllModules`, indexed from 0 in that order. -/
def nodeEntries (dg : DependencyGraph) : List Str :=
  (GetAllModules dg).enum.map (fun p => nodeEntry dg p.1 p.2)

/-- `strings.Join(l, sep)`. -/
def joinSep (sep : Str) : List Str → Str
  | [] => []
  | [x] => x
  | x :: y :: t => x ++ sep ++ joinSep sep (y :: t)

/-- `HTMLRenderer.generateNodes`: the bracketed, comma-joined node
entries. -/
def generateNodes (dg : DependencyGraph) : Str :=
  S "[" ++ joinSep (S ",\n        ") (nodeEntries dg) ++ S "]"

/-- Write `v` under key `k` in the `moduleToIndex` map, overwriting any
previous value. -/
def idxInsert (l : List (Str × Nat)) (k : Str) (v : Nat) : List (Str × Nat) :=
  match l with
  | [] => [(k, v)]
  | p :: t => if p.1 = k then (k, v) :: t else p :: idxInsert t k v

/-- Go map lookup on `moduleToIndex`; a missing key yields the zero value
`0`. -/
def idxLookup (l : List (Str × Nat)) (k : Str) : Nat :=
  match l with
  | [] => 0
  | p :: t => if p.1 = k then p.2 else idxLookup t k

/-- The `moduleToIndex` loop of `HTMLRenderer.generateLinks`: assign each
module its position in the given list. -/
def buildIdxMap : List Module → Nat → List (Str × Nat) → List (Str × Nat)
  | [], _, acc => acc
  | m :: ms, i, acc => buildIdxMap ms (i + 1) (idxInsert acc m.String i)

/-- The module-to-index map of `HTMLRenderer.generateLinks`. -/
def moduleToIndex (modules : List Module) : List (Str × Nat) := buildIdxMap modules 0 []

/-- One link entry of `HTMLRenderer.generateLinks`. -/
def linkEntry (idx : List (Str × Nat)) (dep : Dependency) : Str :=
  S "\x7b\"source\": " ++ natToStr (idxLookup idx dep.From.String) ++
    S ", \"target\": " ++ natToStr (idxLookup idx dep.To.String) ++ S "\x7d"

/-- The `links` slice of `HTMLRenderer.generateLinks`: one entry per
dependency edge in original order. -/
def linkEntries (dg : DependencyGraph) : List Str :=
  dg.Dependencies.map (linkEntry (moduleToIndex (GetAllModules dg)))

/-- `HTMLRenderer.generateLinks`: the bracketed, comma-joined link
entries. -/
def generateLinks (dg : DependencyGraph) : Str :=
  S "[" ++ joinSep (S ",\n        ") (linkEntries dg) ++ S "]"

/-- `sort.Strings`, as used on the adjacency list inside
`PlaintextRenderer.renderNode`. -/
def sortStrs (l : List Str) : List Str := List.insertionSort (· ≤ ·) l

/-- The in-place effect of `sort.Strings(dependencies)` on the cached
tree: the slice stored under `k` (when present) is replaced by `v`; an
absent key is untouched (sorting a nil slice is a no-op). -/
def treeUpdate (t : List (Str × List Str)) (k : Str) (v : List Str) : List (Str × List Str) :=
  match t with
  | [] => []
  | p :: rest => if p.1 = k then (k, v) :: rest else p :: treeUpdate rest k v

/-- The tree returned by `graph.GetTree()` given the current cache state:
the cache itself when non-empty, else the freshly built tree. -/
def effTree (deps : List Dependency) (cache : List (Str × List Str)) : List (Str × List Str) :=
  if cache.length > 0 then cache else buildTreePure deps

/-- The children loop of `PlaintextRenderer.renderNode`: recurse into each
child in order, threading the visited set and the cache; a child is the
last sibling exactly when no further children follow. -/
def renderChildren
    (f : Str → Bool → List Str → List (Str × List Str) → Str × List Str × List (Str × List Str)) :
    List Str → List Str → List (Str × List Str) → Str × List Str × List (Str × List Str)
  | [], visited, cache => ([], visited, cache)
  | c :: cs, visited, cache =>
    let r := f c cs.isEmpty visited cache
    let rest := renderChildren f cs r.2.1 r.2.2
    (r.1 ++ rest.1, rest.2.1, rest.2.2)

/-- The connector printed before a node: none for the root (empty prefix),
a corner for a last sibling, a branch otherwise. -/
def connectorFor (pfx : Str) (isLast : Bool) : Str :=
  if pfx = [] then [] else if isLast then S "└── " else S "├── "

/-- The child-indentation prefix computed by `renderNode`. -/
def childPfx (pfx : Str) (isLast : Bool) : Str :=
  if pfx = [] then S "  " else if isLast then pfx ++ S "    " else pfx ++ S "│   "

/-- `PlaintextRenderer.renderNode`, fuel-indexed: print the node's line;
if the node was already visited stop (the revisit guard), otherwise mark
it visited, fetch its adjacency list from `GetTree`, sort it in place
(mutating the cache), and recurse into the children.  Returns the emitted
output, the visited set, and the cache.  The Go recursion needs no fuel;
the theorem for claim C4 shows every fuel at least `fuelBound` yields the
same result, which is the termination content of the model. -/
def renderNodeF :
    Nat → List Dependency → Str → Str → Bool → List Str → List (Str × List Str) →
      Str × List Str × List (Str × List Str)
  | 0, _, _, _, _, visited, cache => ([], visited, cache)
  | fuel + 1, deps, node, pfx, isLast, visited, cache =>
    let line := pfx ++ connectorFor pfx isLast ++ node ++ ['\n']
    if node ∈ visited then (line, visited, cache)
    else
      let t := effTree deps cache
      let sorted := sortStrs (treeLookup t node)
      let r := renderChildren (fun c l v cc => renderNodeF fuel deps c (childPfx pfx isLast) l v cc)
        sorted (visited ++ [node]) (treeUpdate t node sorted)
      (line ++ r.1, r.2.1, r.2.2)

/-- All canonical strings occurring in the edge list. -/
def depStrings (deps : List Dependency) : List Str :=
  deps.flatMap (fun dep => [dep.From.String, dep.To.String])

/-- All strings stored in the adjacency lists of a cache. -/
def cacheStrings (t : List (Str × List Str)) : List Str := (t.map Prod.snd).flatten

/-- A fuel amount sufficient for `renderNodeF` (shown by the theorem for
claim C4): one more than the number of not-yet-visited node names that the
traversal can still encounter. -/
def fuelBound (deps : List Dependency) (cache : List (Str × List Str)) (node : Str)
    (visited : List Str) : Nat :=
  ((insert node (depStrings deps ++ cacheStrings cache).toFinset) \ visited.toFinset).card + 1

/-- The fuel `PlaintextRender` runs with; at least `fuelBound` of its
initial state. -/
def plaintextFuel (dg : DependencyGraph) : Nat :=
  (dg.MainModule.String :: depStrings dg.Dependencies ++ cacheStrings dg.tree).length + 1

/-- `PlaintextRenderer.Render`: run `renderNode` from the main module's
canonical string with an empty prefix, `isLast = true`, a fresh visited
set, and the graph's current cache; returns the output and the graph with
its (possibly mutated) cache. -/
def PlaintextRender (dg : DependencyGraph) : Str × DependencyGraph :=
  let r := renderNodeF (plaintextFuel dg) dg.Dependencies dg.MainModule.String [] true [] dg.tree
  (r.1, { dg with tree := r.2.2 })

/-- Example module `a` (no version). -/
def mA : Module := { Path := S "a", Version := [] }

/-- Example module `b` (no version). -/
def mB : Module := { Path := S "b", Version := [] }

/-- Example module `c` (no version). -/
def mC : Module := { Path := S "c", Version := [] }

/-- Example: two-module graph, root `a`, one edge `a → b`. -/
def gAB : DependencyGraph := AddDependency (NewDependencyGraph mA) mA mB

/-- Example: cyclic graph `a → b → a`. -/
def gCycle : DependencyGraph :=
  AddDependency (AddDependency (NewDependencyGraph mA) mA mB) mB mA

/-- Example: root `a` with edges `a → c` then `a → b`, whose adjacency
list for `a` is not in sorted order. -/
def gACB : DependencyGraph :=
  AddDependency (AddDependency (NewDependencyGraph mA) mA mC) mA mB

/-- Module with path `a@b` and empty version: canonical string `a@b`. -/
def mAtB : Module := { Path := S "a@b", Version := [] }

/-- Module with path `a` and version `b`: canonical string `a@b` as
well. -/
def mAvB : Module := { Path := S "a", Version := S "b" }

/-- Example: graph whose root is `mAtB` while its one edge starts at the
canonically equal `mAvB`. -/
def gAlias : DependencyGraph := AddDependency (NewDependencyGraph mAtB) mAvB mC

/-- Example: module with a double quote in its path. -/
def mQuote : Module := { Path := S "a\"b", Version := [] }

/-- Example: graph containing `mQuote`, root `a` with one edge
`a → a"b`. -/
def gQuote : DependencyGraph := AddDependency (NewDependencyGraph mA) mA mQuote

/-! ### Properties of the module set and `GetAllModules` -/

theorem setInsert_keys (l : List (Str × Module)) (k : Str) (v : Module) :
    (setInsert l k v).map Prod.fst =
      if k ∈ l.map Prod.fst then l.map Prod.fst else l.map Prod.fst ++ [k] := by
  induction l with
  | nil => simp [setInsert]
  | cons p t ih =>
    by_cases h : p.1 = k
    · subst h; simp [setInsert]
    · simp only [setInsert, if_neg h, List.map_cons, ih, List.mem_cons]
      by_cases h2 : k ∈ t.map Prod.fst
      · simp [h2, Ne.symm h]
      · simp [h2, Ne.symm h]

theorem setInsert_string (l : List (Str × Module)) (k : Str) (v : Module)
    (hv : Module.String v = k) (hl : ∀ p ∈ l, Module.String p.2 = p.1) :
    ∀ p ∈ setInsert l k v, Module.String p.2 = p.1 := by
  induction l with
  | nil => intro p hp; simp [setInsert] at hp; simp [hp, hv]
  | cons q t ih =>
    intro p hp
    by_cases h : q.1 = k
    · rw [setInsert, if_pos h] at hp
      rcases List.mem_cons.mp hp with h1 | h1
      · simp [h1, hv]
      · exact hl p (List.mem_cons_of_mem q h1)
    · rw [setInsert, if_neg h] at hp
      rcases List.mem_cons.mp hp with h1 | h1
      · exact hl p (h1 ▸ List.mem_cons_self q t)
      · exact ih (fun r hr => hl r (List.mem_cons_of_mem q hr)) p h1

theorem setInsert_keys_nodup (l : List (Str × Module)) (k : Str) (v : Module)
    (h : (l.map Prod.fst).Nodup) : ((setInsert l k v).map Prod.fst).Nodup := by
  rw [setInsert_keys]
  by_cases hm : k ∈ l.map Prod.fst
  · simpa [hm] using h
  · simp [hm, List.nodup_append, h]

theorem setInsert_mem_keys (l : List (Str × Module)) (k : Str) (v : Module) (a : Str) :
    a ∈ (setInsert l k v).map Prod.fst ↔ a ∈ l.map Prod.fst ∨ a = k := by
  rw [setInsert_keys]
  by_cases hm : k ∈ l.map Prod.fst
  · simp only [if_pos hm]
    exact ⟨Or.inl, fun h => h.elim id (fun e => e ▸ hm)⟩
  · simp [hm]

theorem moduleSet_foldl_string (deps : List Dependency) :
    ∀ acc : List (Str × Module), (∀ p ∈ acc, Module.String p.2 = p.1) →
    ∀ p ∈ deps.foldl
      (fun acc dep => setInsert (setInsert acc dep.From.String dep.From) dep.To.String dep.To)
      acc, Module.String p.2 = p.1 := by
  induction deps with
  | nil => intro acc h; simpa using h
  | cons d t ih =>
    intro acc h
    simp only [List.foldl_cons]
    exact ih _ (setInsert_string _ _ _ rfl (setInsert_string _ _ _ rfl h))

theorem moduleSetPairs_string (dg : DependencyGraph) :
    ∀ p ∈ moduleSetPairs dg, Module.String p.2 = p.1 :=
  moduleSet_foldl_string _ _ (setInsert_string _ _ _ rfl (by simp))

theorem moduleSet_foldl_nodup (deps : List Dependency) :
    ∀ acc : List (Str × Module), (acc.map Prod.fst).Nodup →
    ((deps.foldl
      (fun acc dep => setInsert (setInsert acc dep.From.String dep.From) dep.To.String dep.To)
      acc).map Prod.fst).Nodup := by
  induction deps with
  | nil => intro acc h; simpa using h
  | cons d t ih =>
    intro acc h
    simp only [List.foldl_cons]
    exact ih _ (setInsert_keys_nodup _ _ _ (setInsert_keys_nodup _ _ _ h))

theorem moduleSetPairs_keys_nodup (dg : DependencyGraph) :
    ((moduleSetPairs dg).map Prod.fst).Nodup :=
  moduleSet_foldl_nodup _ _ (by simp [setInsert])

theorem moduleSet_foldl_mem (deps : List Dependency) :
    ∀ (acc : List (Str × Module)) (a : Str),
    a ∈ (deps.foldl
      (fun acc dep => setInsert (setInsert acc dep.From.String dep.From) dep.To.String dep.To)
      acc).map Prod.fst ↔
      a ∈ acc.map Prod.fst ∨ ∃ d ∈ deps, a = d.From.String ∨ a = d.To.String := by
  induction deps with
  | nil => simp
  | cons d t ih =>
    intro acc a
    simp only [List.foldl_cons, ih, setInsert_mem_keys, List.mem_cons]
    constructor
    · rintro (((h | h) | h) | ⟨d', hd', h⟩)
      · exact Or.inl h
      · exact Or.inr ⟨d, Or.inl rfl, Or.inl h⟩
      · exact Or.inr ⟨d, Or.inl rfl, Or.inr h⟩
      · exact Or.inr ⟨d', Or.inr hd', h⟩
    · rintro (h | ⟨d', hd' | hd', h⟩)
      · exact Or.inl (Or.inl (Or.inl h))
      · rcases h with h | h
        · exact Or.inl (Or.inl (Or.inr (hd' ▸ h)))
        · exact Or.inl (Or.inr (hd' ▸ h))
      · exact Or.inr ⟨d', hd', h⟩

theorem moduleSetPairs_mem (dg : DependencyGraph) (a : Str) :
    a ∈ (moduleSetPairs dg).map Prod.fst ↔
      a = dg.MainModule.String ∨ ∃ d ∈ dg.Dependencies, a = d.From.String ∨ a = d.To.String := by
  unfold moduleSetPairs
  rw [moduleSet_foldl_mem]
  simp [setInsert]

theorem moduleSetPairs_values_strings (dg : DependencyGraph) :
    ((moduleSetPairs dg).map Prod.snd).map Module.String = (moduleSetPairs dg).map Prod.fst := by
  rw [List.map_map]
  exact List.map_congr_left (fun p hp => moduleSetPairs_string dg p hp)

theorem getAllModules_perm (dg : DependencyGraph) :
    (GetAllModules dg).Perm ((moduleSetPairs dg).map Prod.snd) :=
  List.perm_insertionSort modLe _

theorem getAllModules_sorted_le (dg : DependencyGraph) :
    List.Sorted modLe (GetAllModules dg) :=
  List.sorted_insertionSort modLe _

theorem getAllModules_strings_perm (dg : DependencyGraph) :
    ((GetAllModules dg).map Module.String).Perm ((moduleSetPairs dg).map Prod.fst) := by
  have h := (getAllModules_perm dg).map Module.String
  rwa [moduleSetPairs_values_strings] at h

theorem getAllModules_strings_nodup (dg : DependencyGraph) :
    ((GetAllModules dg).map Module.String).Nodup :=
  ((getAllModules_strings_perm dg).nodup_iff).mpr (moduleSetPairs_keys_nodup dg)

theorem getAllModules_mem (dg : DependencyGraph) (a : Str) :
    a ∈ (GetAllModules dg).map Module.String ↔
      a = dg.MainModule.String ∨ ∃ d ∈ dg.Dependencies, a = d.From.String ∨ a = d.To.String := by
  rw [(getAllModules_strings_perm dg).mem_iff]
  exact moduleSetPairs_mem dg a

theorem insertionSort_strings_sorted_le (l : List Module) :
    ((List.insertionSort modLe l).map Module.String).Sorted (· ≤ ·) := by
  rw [List.Sorted, List.pairwise_map]
  exact List.sorted_insertionSort modLe l

theorem getAllModules_strings_sorted (dg : DependencyGraph) :
    ((GetAllModules dg).map Module.String).Sorted (· < ·) :=
  (insertionSort_strings_sorted_le _).lt_of_le (getAllModules_strings_nodup dg)

theorem eq_of_perm_of_map_eq {α β : Type _} (f : α → β) :
    ∀ l₁ l₂ : List α, l₁.Perm l₂ → l₁.map f = l₂.map f → (l₁.map f).Nodup → l₁ = l₂ := by
  intro l₁
  induction l₁ with
  | nil =>
    intro l₂ hp _ _
    exact (List.Perm.eq_nil hp.symm).symm
  | cons a t ih =>
    intro l₂ hp hm hn
    cases l₂ with
    | nil =>
      have := hp.length_eq
      simp at this
    | cons b t₂ =>
      simp only [List.map_cons, List.cons.injEq] at hm
      obtain ⟨hab, ht⟩ := hm
      have ha : a = b := by
        by_contra hne
        have ha2 : a ∈ b :: t₂ := hp.subset (List.mem_cons_self a t)
        rcases List.mem_cons.mp ha2 with h1 | h1
        · exact hne h1
        · have h2 : f a ∈ t₂.map f := List.mem_map_of_mem f h1
          rw [← ht] at h2
          rw [List.map_cons, List.nodup_cons] at hn
          exact hn.1 h2
      subst ha
      have hp' : t.Perm t₂ := hp.cons_inv
      rw [ih t₂ hp' ht ((List.map_cons f a t ▸ hn).of_cons)]

theorem getAllModules_stable (dg : DependencyGraph) (l : List Module)
    (hp : l.Perm ((moduleSetPairs dg).map Prod.snd)) :
    List.insertionSort modLe l = GetAllModules dg := by
  have hperm : (List.insertionSort modLe l).Perm (GetAllModules dg) :=
    (List.perm_insertionSort modLe l).trans (hp.trans (getAllModules_perm dg).symm)
  have hnd : ((List.insertionSort modLe l).map Module.String).Nodup :=
    ((hperm.map Module.String).nodup_iff).mpr (getAllModules_strings_nodup dg)
  exact eq_of_perm_of_map_eq Module.String _ _ hperm
    (List.eq_of_perm_of_sorted (hperm.map Module.String)
      (insertionSort_strings_sorted_le l) (insertionSort_strings_sorted_le _)) hnd

/-- C1: `GetAllModules` returns, sorted strictly ascending by canonical
string (hence deduplicated), exactly the canonical strings of the root and
of every edge endpoint; the root is always present; and the result does
not depend on the iteration order of the Go `moduleSet` map — sorting any
permutation of its values yields the same sequence, so repeated calls on
an unmutated graph return the identical ordered sequence. -/
theorem C1_getAllModules (dg : DependencyGraph) :
    ((GetAllModules dg).map Module.String).Sorted (· < ·) ∧
    (∀ a : Str, a ∈ (GetAllModules dg).map Module.String ↔
      a = dg.MainModule.String ∨ ∃ d ∈ dg.Dependencies, a = d.From.String ∨ a = d.To.String) ∧
    dg.MainModule.String ∈ (GetAllModules dg).map Module.String ∧
    (∀ l : List Module, l.Perm ((moduleSetPairs dg).map Prod.snd) →
      List.insertionSort modLe l = GetAllModules dg) :=
  ⟨getAllModules_strings_sorted dg, getAllModules_mem dg,
    (getAllModules_mem dg _).mpr (Or.inl rfl), getAllModules_stable dg⟩

/-- Witness for C1 at the concrete two-module graph `gAB`: sorting the
reversed value list yields exactly `GetAllModules gAB`. -/
theorem C1_getAllModules_witness :
    List.insertionSort modLe [mB, mA] = GetAllModules gAB :=
  (C1_getAllModules gAB).2.2.2 [mB, mA] (by decide)

/-! ### Properties of `GetDirectDependencies` -/

theorem getDirectDependencies_foldl (m : Module) (deps : List Dependency) :
    ∀ acc : List Module,
      deps.foldl (fun l dep => if dep.From.String = m.String then l ++ [dep.To] else l) acc =
        acc ++ (deps.filter (fun dep => dep.From.String = m.String)).map Dependency.To := by
  induction deps with
  | nil => simp
  | cons d t ih =>
    intro acc
    simp only [List.foldl_cons, List.filter_cons]
    by_cases h : d.From.String = m.String
    · simp [h, ih, List.append_assoc]
    · simp [h, ih]

theorem getDirectDependencies_eq (dg : DependencyGraph) (m : Module) :
    GetDirectDependencies dg m =
      (dg.Dependencies.filter (fun dep => dep.From.String = m.String)).map Dependency.To := by
  unfold GetDirectDependencies
  rw [getDirectDependencies_foldl]
  simp

/-- C7: `GetDirectDependencies` returns exactly the `To` endpoints of the
edges whose `From` matches the queried module by canonical string, in
insertion order, and an edge added twice contributes two entries. -/
theorem C7_getDirectDependencies (dg : DependencyGraph) (m : Module) :
    GetDirectDependencies dg m =
      (dg.Dependencies.filter (fun dep => dep.From.String = m.String)).map Dependency.To ∧
    ∀ fm toM : Module, fm.String = m.String →
      GetDirectDependencies (AddDependency (AddDependency dg fm toM) fm toM) m =
        GetDirectDependencies dg m ++ [toM, toM] := by
  refine ⟨getDirectDependencies_eq dg m, ?_⟩
  intro fm toM h
  rw [getDirectDependencies_eq, getDirectDependencies_eq]
  simp [AddDependency, List.filter_append, h]

/-- Witness for C7 at the concrete graph `gAB`: adding the edge `a → b`
twice more yields two further copies of `b`. -/
theorem C7_getDirectDependencies_witness :
    GetDirectDependencies gAB mA =
      (gAB.Dependencies.filter (fun dep => dep.From.String = mA.String)).map Dependency.To ∧
    GetDirectDependencies (AddDependency (AddDependency gAB mA mB) mA mB) mA =
      GetDirectDependencies gAB mA ++ [mB, mB] :=
  ⟨(C7_getDirectDependencies gAB mA).1,
    (C7_getDirectDependencies gAB mA).2 mA mB (by decide)⟩

/-- C10: module identity at the public interface is by canonical string:
`GetAllModules` never returns two modules with equal canonical strings,
and `GetDirectDependencies` gives the same answer for any two modules with
equal canonical strings (so edges recorded under one are returned for the
other). -/
theorem C10_canonical_identity (dg : DependencyGraph) (m₁ m₂ : Module)
    (h : m₁.String = m₂.String) :
    ((GetAllModules dg).map Module.String).Nodup ∧
    GetDirectDependencies dg m₁ = GetDirectDependencies dg m₂ := by
  refine ⟨getAllModules_strings_nodup dg, ?_⟩
  rw [getDirectDependencies_eq, getDirectDependencies_eq, h]

/-- Witness for C10 at `gAlias`, whose root has path `a@b` and no version
while its edge's `From` has path `a` and version `b` — equal canonical
strings. -/
theorem C10_canonical_identity_witness :
    ((GetAllModules gAlias).map Module.String).Nodup ∧
    GetDirectDependencies gAlias mAtB = GetDirectDependencies gAlias mAvB :=
  C10_canonical_identity gAlias mAtB mAvB (by decide)

/-! ### Freshness of the cached adjacency tree -/

theorem treeLookup_treeAppend (t : List (Str × List Str)) (k v s : Str) :
    treeLookup (treeAppend t k v) s =
      if k = s then treeLookup t s ++ [v] else treeLookup t s := by
  induction t with
  | nil =>
    by_cases h : k = s <;> simp [treeAppend, treeLookup, h]
  | cons p rest ih =>
    by_cases h1 : p.1 = k
    · by_cases h2 : k = s
      · simp [treeAppend, treeLookup, h1, h2]
      · have h3 : ¬p.1 = s := fun e => h2 (h1 ▸ e)
        simp [treeAppend, treeLookup, h1, h2, h3]
    · by_cases h3 : p.1 = s
      · have h2 : ¬k = s := fun e => h1 (h3 ▸ e.symm)
        have h4 : ¬s = k := fun e => h2 e.symm
        simp [treeAppend, treeLookup, h1, h2, h3, h4]
      · simp [treeAppend, treeLookup, h1, h3, ih]

theorem buildTree_foldl_lookup (s : Str) (deps : List Dependency) :
    ∀ t₀ : List (Str × List Str),
      treeLookup (deps.foldl (fun t dep => treeAppend t dep.From.String dep.To.String) t₀) s =
        treeLookup t₀ s ++ (deps.filter (fun d => d.From.String = s)).map
          (fun d => d.To.String) := by
  induction deps with
  | nil => simp
  | cons d rest ih =>
    intro t₀
    simp only [List.foldl_cons, ih, treeLookup_treeAppend, List.filter_cons]
    by_cases h : d.From.String = s
    · simp [h, List.append_assoc]
    · simp [h]

theorem buildTreePure_lookup (deps : List Dependency) (s : Str) :
    treeLookup (buildTreePure deps) s =
      (deps.filter (fun d => d.From.String = s)).map (fun d => d.To.String) := by
  unfold buildTreePure
  rw [buildTree_foldl_lookup]
  simp [treeLookup]

/-- A graph state whose cache is coherent: empty, or exactly the tree
built from the current edge list. -/
def cacheOK (dg : DependencyGraph) : Prop :=
  dg.tree = [] ∨ dg.tree = buildTreePure dg.Dependencies

theorem buildTree_tree_of_cacheOK (dg : DependencyGraph) (h : cacheOK dg) :
    (buildTree dg).tree = buildTreePure dg.Dependencies := by
  rcases h with h | h
  · simp [buildTree, h]
  · unfold buildTree
    split
    · exact h
    · rfl

theorem cacheOK_applyOp (dg : DependencyGraph) (op : GraphOp) (h : cacheOK dg) :
    cacheOK (applyOp dg op) := by
  cases op with
  | add fm toM => exact Or.inl rfl
  | readTree =>
    right
    have h2 : (buildTree dg).Dependencies = dg.Dependencies := by
      unfold buildTree; split <;> rfl
    show (buildTree dg).tree = buildTreePure (buildTree dg).Dependencies
    rw [buildTree_tree_of_cacheOK dg h, h2]

theorem cacheOK_applyOps (ops : List GraphOp) :
    ∀ dg : DependencyGraph, cacheOK dg → cacheOK (applyOps dg ops) := by
  induction ops with
  | nil => intro dg h; exact h
  | cons op rest ih =>
    intro dg h
    exact ih (applyOp dg op) (cacheOK_applyOp dg op h)

/-- C5: after any sequence of graph operations (`AddDependency` calls and
`GetTree` reads) starting from a fresh graph, `GetTree` returns exactly
the adjacency mapping computed from the current dependency sequence in a
single pass — each `from` canonical string mapped to the `to` canonical
strings of its edges in insertion order; the cache is never stale. -/
theorem C5_tree_not_stale (root : Module) (ops : List GraphOp) (s : Str) :
    treeLookup (GetTree (applyOps (NewDependencyGraph root) ops)).1 s =
      ((applyOps (NewDependencyGraph root) ops).Dependencies.filter
        (fun d => d.From.String = s)).map (fun d => d.To.String) := by
  have h := cacheOK_applyOps ops (NewDependencyGraph root) (Or.inl rfl)
  show treeLookup (buildTree _).tree s = _
  rw [buildTree_tree_of_cacheOK _ h, buildTreePure_lookup]

/-! ### The HTML name-field escaping (claim C3) -/

/-- C3: the claim fails on the code — `generateNodes` escapes the quote
first and the backslash second, so the canonical string `a"b` yields the
double-escaped `a\\"b` in the name field (the spec-prescribed
backslash-first escaping would yield `a\"b`), and the forbidden sequence
`\\"` does occur in the node fragment of a graph containing that
module. -/
theorem C3_escape_order_bug :
    hEscape mQuote.String = S "a\\\\\"b" ∧
    specNameEscape mQuote.String = S "a\\\"b" ∧
    hEscape mQuote.String ≠ specNameEscape mQuote.String ∧
    List.IsInfix (S "\\\\\"") (generateNodes gQuote) := by decide

/-! ### Mermaid node-line emission order (claim C2) -/

/-- C2: the claim fails on the code — `MermaidRenderer.Render` emits its
node-definition lines by ranging over the `nodeIDs` Go map, whose
iteration order is unspecified.  Both `[b, a]` and `[a, b]` are
permutations of that map's keys, hence possible runs, and they produce
different bytes; so the render is not deterministic across runs and the
node lines are not guaranteed to appear in sorted module order. -/
theorem C2_mermaid_order_unstable :
    (mermaidIDs gAB).map Prod.fst = [S "a", S "b"] ∧
    List.Perm [S "b", S "a"] ((mermaidIDs gAB).map Prod.fst) ∧
    MermaidRender gAB [S "b", S "a"] ≠ MermaidRender gAB [S "a", S "b"] := by decide

/-! ### The Graphviz renderer (claim C9) -/

theorem sanitizeNodeID_eq_map (s : Str) :
    sanitizeNodeID s =
      s.map (fun c => if c = '/' ∨ c = '.' ∨ c = '@' ∨ c = '-' then '_' else c) := by
  simp only [sanitizeNodeID, replaceChar, List.map_map]
  apply List.map_congr_left
  intro c _
  by_cases h1 : c = '/'
  · simp [h1, Function.comp]
  · by_cases h2 : c = '.'
    · simp [h2, Function.comp]
    · by_cases h3 : c = '@'
      · simp [h3, Function.comp]
      · by_cases h4 : c = '-'
        · simp [h4, Function.comp]
        · simp [h1, h2, h3, h4, Function.comp]

theorem filter_eq_singleton_of_nodup {a : Str} :
    ∀ strs : List Str, strs.Nodup → a ∈ strs →
      (strs.filter (fun s => s = a)).length = 1 := by
  intro strs
  induction strs with
  | nil => intro _ h; cases h
  | cons b t ih =>
    intro hn hm
    by_cases h : b = a
    · subst h
      have hb : b ∉ t := (List.nodup_cons.mp hn).1
      have ht : t.filter (fun s => s = b) = [] := by
        rw [List.filter_eq_nil_iff]
        intro x hx
        simp only [decide_eq_true_eq]
        intro e
        exact hb (e ▸ hx)
      simp [List.filter_cons, ht]
    · have hm' : a ∈ t := by
        rcases List.mem_cons.mp hm with h1 | h1
        · exact absurd h1.symm h
        · exact h1
      have := ih (List.nodup_cons.mp hn).2 hm'
      simp [List.filter_cons, h, this]

theorem getAllModules_one_main (dg : DependencyGraph) :
    ((GetAllModules dg).filter (fun m => m.String = dg.MainModule.String)).length = 1 := by
  have h1 : ((GetAllModules dg).map Module.String).filter
      (fun s => s = dg.MainModule.String) =
      ((GetAllModules dg).filter (fun m => m.String = dg.MainModule.String)).map
        Module.String := by
    rw [List.filter_map]
    rfl
  have h2 := filter_eq_singleton_of_nodup ((GetAllModules dg).map Module.String)
    (getAllModules_strings_nodup dg) ((getAllModules_mem dg _).mpr (Or.inl rfl))
  rw [h1, List.length_map] at h2
  exact h2

/-- C9: `sanitizeNodeID` replaces every `/`, `.`, `@`, `-` character by
`_` (in particular on the spec's example module name); the Graphviz output
is the header followed by one node line per module of the sorted
`GetAllModules` sequence in order, then the edge lines; and exactly one
module of that sequence — the root — receives the highlighting
attributes. -/
theorem C9_graphviz (dg : DependencyGraph) (s : Str) :
    sanitizeNodeID s =
      s.map (fun c => if c = '/' ∨ c = '.' ∨ c = '@' ∨ c = '-' then '_' else c) ∧
    sanitizeNodeID (S "github.com/example/module@v1.2.3") =
      S "github_com_example_module_v1_2_3" ∧
    GraphvizRender dg =
      S "digraph dependencies \x7b\n" ++ S "    rankdir=LR;\n" ++
        S "    node [shape=box, style=rounded];\n" ++
        ((GetAllModules dg).map (graphvizNodeLine dg)).flatten ++
        (dg.Dependencies.map graphvizEdgeLine).flatten ++ S "\x7d\n" ∧
    ((GetAllModules dg).map Module.String).Sorted (· < ·) ∧
    ((GetAllModules dg).filter (fun m => m.String = dg.MainModule.String)).length = 1 :=
  ⟨sanitizeNodeID_eq_map s, by decide, rfl, getAllModules_strings_sorted dg,
    getAllModules_one_main dg⟩

/-! ### The node-link (HTML) index consistency (claim C8) -/

theorem idxInsert_lookup (acc : List (Str × Nat)) (k : Str) (v : Nat) (q : Str) :
    idxLookup (idxInsert acc k v) q = if k = q then v else idxLookup acc q := by
  induction acc with
  | nil => by_cases h : k = q <;> simp [idxInsert, idxLookup, h]
  | cons p t ih =>
    by_cases h1 : p.1 = k
    · by_cases h2 : k = q
      · simp [idxInsert, idxLookup, h1, h2]
      · have h3 : ¬p.1 = q := fun e => h2 (h1.symm.trans e)
        simp [idxInsert, idxLookup, h1, h2, h3]
    · by_cases h3 : p.1 = q
      · have h2 : ¬k = q := fun e => h1 (h3.trans e.symm)
        have h4 : ¬q = k := fun e => h1 (h3.trans e)
        simp [idxInsert, idxLookup, h1, h2, h3, h4]
      · simp [idxInsert, idxLookup, h1, h3, ih]

theorem buildIdxMap_lookup (q : Str) :
    ∀ (ms : List Module) (i : Nat) (acc : List (Str × Nat)),
      (ms.map Module.String).Nodup →
      idxLookup (buildIdxMap ms i acc) q =
        if q ∈ ms.map Module.String
        then i + (ms.map Module.String).findIdx (fun t => t = q)
        else idxLookup acc q := by
  intro ms
  induction ms with
  | nil => intro i acc _; simp [buildIdxMap]
  | cons m t ih =>
    intro i acc hn
    rw [List.map_cons, List.nodup_cons] at hn
    obtain ⟨hm, hn'⟩ := hn
    simp only [buildIdxMap]
    rw [ih _ _ hn']
    by_cases hq : q ∈ t.map Module.String
    · have hne : ¬m.String = q := fun e => hm (e ▸ hq)
      rw [if_pos hq, if_pos (by simp [hq]), List.map_cons, List.findIdx_cons]
      simp only [hne, decide_False]
      show i + 1 + _ = i + (_ + 1)
      omega
    · rw [if_neg hq, idxInsert_lookup]
      by_cases he : m.String = q
      · rw [if_pos he, if_pos (by simp [he]), List.map_cons, List.findIdx_cons]
        simp [he]
      · have hnm : ¬q ∈ (m :: t).map Module.String := by
          simp only [List.map_cons, List.mem_cons]
          rintro (h | h)
          · exact he h.symm
          · exact hq h
        rw [if_neg he, if_neg hnm]

theorem moduleToIndex_lookup (modules : List Module)
    (hn : (modules.map Module.String).Nodup) (q : Str)
    (hq : q ∈ modules.map Module.String) :
    idxLookup (moduleToIndex modules) q =
      (modules.map Module.String).findIdx (fun t => t = q) := by
  unfold moduleToIndex
  rw [buildIdxMap_lookup q modules 0 [] hn, if_pos hq]
  simp

theorem get_findIdx_strings (l : List Str) (s : Str) (h : s ∈ l) :
    l.get? (l.findIdx (fun t => t = s)) = some s := by
  have h1 : l.findIdx (fun t => t = s) < l.length :=
    List.findIdx_lt_length_of_exists ⟨s, h, by simp⟩
  rw [List.get?_eq_get h1]
  congr 1
  have h2 := List.findIdx_get (p := fun t => decide (t = s)) (w := h1)
  simpa using h2

theorem getAllModules_resolve (dg : DependencyGraph) (s : Str)
    (h : s ∈ (GetAllModules dg).map Module.String) :
    ((GetAllModules dg).get? (idxLookup (moduleToIndex (GetAllModules dg)) s)).map
      Module.String = some s := by
  rw [moduleToIndex_lookup _ (getAllModules_strings_nodup dg) s h, ← List.get?_map]
  exact get_findIdx_strings _ s h

/-- C8: the node fragment has one entry per module of `GetAllModules` and
the link fragment one entry per dependency edge in original order; for
every edge, the emitted source and target are the 0-based positions of its
endpoints' canonical strings in the sorted module sequence, and indexing
that sequence with them resolves back to the endpoints; on the concrete
two-module graph `gAB` this gives exactly 2 node entries and the single
link `{source 0, target 1}`. -/
theorem C8_nodeLink (dg : DependencyGraph) :
    (nodeEntries dg).length = (GetAllModules dg).length ∧
    (linkEntries dg).length = dg.Dependencies.length ∧
    (∀ dep ∈ dg.Dependencies,
      idxLookup (moduleToIndex (GetAllModules dg)) dep.From.String =
        ((GetAllModules dg).map Module.String).findIdx (fun t => t = dep.From.String) ∧
      idxLookup (moduleToIndex (GetAllModules dg)) dep.To.String =
        ((GetAllModules dg).map Module.String).findIdx (fun t => t = dep.To.String) ∧
      ((GetAllModules dg).get? (idxLookup (moduleToIndex (GetAllModules dg))
        dep.From.String)).map Module.String = some dep.From.String ∧
      ((GetAllModules dg).get? (idxLookup (moduleToIndex (GetAllModules dg))
        dep.To.String)).map Module.String = some dep.To.String) ∧
    (nodeEntries gAB).length = 2 ∧
    generateLinks gAB = S "[\x7b\"source\": 0, \"target\": 1\x7d]" := by
  refine ⟨?_, ?_, ?_, by decide, by decide⟩
  · simp [nodeEntries]
  · simp [linkEntries]
  · intro dep hdep
    have hf : dep.From.String ∈ (GetAllModules dg).map Module.String :=
      (getAllModules_mem dg _).mpr (Or.inr ⟨dep, hdep, Or.inl rfl⟩)
    have ht : dep.To.String ∈ (GetAllModules dg).map Module.String :=
      (getAllModules_mem dg _).mpr (Or.inr ⟨dep, hdep, Or.inr rfl⟩)
    exact ⟨moduleToIndex_lookup _ (getAllModules_strings_nodup dg) _ hf,
      moduleToIndex_lookup _ (getAllModules_strings_nodup dg) _ ht,
      getAllModules_resolve dg _ hf, getAllModules_resolve dg _ ht⟩

/-- Witness for C8 at the edge `a → b` of `gAB`. -/
theorem C8_nodeLink_witness :
    idxLookup (moduleToIndex (GetAllModules gAB)) (Dependency.mk mA mB).From.String =
      ((GetAllModules gAB).map Module.String).findIdx
        (fun t => t = (Dependency.mk mA mB).From.String) ∧
    idxLookup (moduleToIndex (GetAllModules gAB)) (Dependency.mk mA mB).To.String =
      ((GetAllModules gAB).map Module.String).findIdx
        (fun t => t = (Dependency.mk mA mB).To.String) ∧
    ((GetAllModules gAB).get? (idxLookup (moduleToIndex (GetAllModules gAB))
      (Dependency.mk mA mB).From.String)).map Module.String =
        some (Dependency.mk mA mB).From.String ∧
    ((GetAllModules gAB).get? (idxLookup (moduleToIndex (GetAllModules gAB))
      (Dependency.mk mA mB).To.String)).map Module.String =
        some (Dependency.mk mA mB).To.String :=
  (C8_nodeLink gAB).2.2.1 (Dependency.mk mA mB) (by decide)

/-! ### The plaintext tree renderer: cache and visited-set lemmas -/

theorem mem_cacheStrings {s : Str} {t : List (Str × List Str)} :
    s ∈ cacheStrings t ↔ ∃ p ∈ t, s ∈ p.2 := by
  simp only [cacheStrings, List.mem_flatten, List.mem_map]
  constructor
  · rintro ⟨l, ⟨p, hp, rfl⟩, hs⟩
    exact ⟨p, hp, hs⟩
  · rintro ⟨p, hp, hs⟩
    exact ⟨p.2, ⟨p, hp, rfl⟩, hs⟩

theorem cacheStrings_cons (p : Str × List Str) (t : List (Str × List Str)) :
    cacheStrings (p :: t) = p.2 ++ cacheStrings t := by
  simp [cacheStrings]

theorem treeLookup_sub (t : List (Str × List Str)) (k : Str) :
    ∀ s ∈ treeLookup t k, s ∈ cacheStrings t := by
  induction t with
  | nil => intro s hs; cases hs
  | cons p rest ih =>
    intro s hs
    rw [cacheStrings_cons, List.mem_append]
    by_cases h : p.1 = k
    · rw [treeLookup, if_pos h] at hs
      exact Or.inl hs
    · rw [treeLookup, if_neg h] at hs
      exact Or.inr (ih s hs)

theorem cacheStrings_treeAppend (t : List (Str × List Str)) (k v : Str) :
    ∀ s ∈ cacheStrings (treeAppend t k v), s ∈ cacheStrings t ∨ s = v := by
  induction t with
  | nil =>
    intro s hs
    simp [treeAppend, cacheStrings] at hs
    exact Or.inr hs
  | cons p rest ih =>
    intro s hs
    by_cases h : p.1 = k
    · rw [treeAppend, if_pos h, cacheStrings_cons] at hs
      rw [cacheStrings_cons]
      rcases List.mem_append.mp hs with h1 | h1
      · rcases List.mem_append.mp h1 with h2 | h2
        · exact Or.inl (List.mem_append.mpr (Or.inl h2))
        · exact Or.inr (List.mem_singleton.mp h2)
      · exact Or.inl (List.mem_append.mpr (Or.inr h1))
    · rw [treeAppend, if_neg h, cacheStrings_cons] at hs
      rw [cacheStrings_cons]
      rcases List.mem_append.mp hs with h1 | h1
      · exact Or.inl (List.mem_append.mpr (Or.inl h1))
      · rcases ih s h1 with h2 | h2
        · exact Or.inl (List.mem_append.mpr (Or.inr h2))
        · exact Or.inr h2

theorem depStrings_cons (d : Dependency) (deps : List Dependency) :
    depStrings (d :: deps) = d.From.String :: d.To.String :: depStrings deps := by
  simp [depStrings]

theorem cacheStrings_buildTree_foldl (deps : List Dependency) :
    ∀ t₀ : List (Str × List Str), ∀ s,
      s ∈ cacheStrings (deps.foldl
        (fun t dep => treeAppend t dep.From.String dep.To.String) t₀) →
      s ∈ cacheStrings t₀ ∨ s ∈ depStrings deps := by
  induction deps with
  | nil => intro t₀ s hs; exact Or.inl hs
  | cons d rest ih =>
    intro t₀ s hs
    rw [List.foldl_cons] at hs
    rcases ih _ s hs with h1 | h1
    · rcases cacheStrings_treeAppend _ _ _ s h1 with h2 | h2
      · exact Or.inl h2
      · refine Or.inr ?_
        rw [depStrings_cons, h2]
        exact List.mem_cons_of_mem _ (List.mem_cons_self _ _)
    · refine Or.inr ?_
      rw [depStrings_cons]
      exact List.mem_cons_of_mem _ (List.mem_cons_of_mem _ h1)

theorem cacheStrings_buildTreePure (deps : List Dependency) :
    ∀ s ∈ cacheStrings (buildTreePure deps), s ∈ depStrings deps := by
  intro s hs
  rcases cacheStrings_buildTree_foldl deps [] s hs with h | h
  · cases h
  · exact h

theorem cacheStrings_effTree (deps : List Dependency) (cc : List (Str × List Str)) :
    ∀ s ∈ cacheStrings (effTree deps cc), s ∈ depStrings deps ∨ s ∈ cacheStrings cc := by
  intro s hs
  unfold effTree at hs
  by_cases h : cc.length > 0
  · rw [if_pos h] at hs; exact Or.inr hs
  · rw [if_neg h] at hs; exact Or.inl (cacheStrings_buildTreePure deps s hs)

theorem cacheStrings_treeUpdate (t : List (Str × List Str)) (n : Str) (v : List Str) :
    ∀ s ∈ cacheStrings (treeUpdate t n v), s ∈ cacheStrings t ∨ s ∈ v := by
  induction t with
  | nil => intro s hs; cases hs
  | cons p rest ih =>
    intro s hs
    by_cases h : p.1 = n
    · rw [treeUpdate, if_pos h, cacheStrings_cons] at hs
      rw [cacheStrings_cons]
      rcases List.mem_append.mp hs with h1 | h1
      · exact Or.inr h1
      · exact Or.inl (List.mem_append.mpr (Or.inr h1))
    · rw [treeUpdate, if_neg h, cacheStrings_cons] at hs
      rw [cacheStrings_cons]
      rcases List.mem_append.mp hs with h1 | h1
      · exact Or.inl (List.mem_append.mpr (Or.inl h1))
      · rcases ih s h1 with h2 | h2
        · exact Or.inl (List.mem_append.mpr (Or.inr h2))
        · exact Or.inr h2

theorem treeUpdate_length (t : List (Str × List Str)) (n : Str) (v : List Str) :
    (treeUpdate t n v).length = t.length := by
  induction t with
  | nil => rfl
  | cons p rest ih =>
    by_cases h : p.1 = n
    · rw [treeUpdate, if_pos h]; rfl
    · rw [treeUpdate, if_neg h]; simp [ih]

theorem sortStrs_perm (l : List Str) : (sortStrs l).Perm l :=
  List.perm_insertionSort _ l

theorem sortStrs_congr {l₁ l₂ : List Str} (h : l₁.Perm l₂) : sortStrs l₁ = sortStrs l₂ :=
  List.eq_of_perm_of_sorted ((sortStrs_perm l₁).trans (h.trans (sortStrs_perm l₂).symm))
    (List.sorted_insertionSort _ l₁) (List.sorted_insertionSort _ l₂)

theorem treeUpdate_perm_lookup (v : List Str) :
    ∀ (t : List (Str × List Str)) (n k : Str), v.Perm (treeLookup t n) →
      (treeLookup (treeUpdate t n v) k).Perm (treeLookup t k) := by
  intro t
  induction t with
  | nil => intro n k _; exact List.Perm.refl _
  | cons p rest ih =>
    intro n k hperm
    by_cases h1 : p.1 = n
    · by_cases h2 : n = k
      · have h3 : p.1 = k := h1.trans h2
        simp only [treeLookup, if_pos h1] at hperm
        simp only [treeLookup, treeUpdate, if_pos h1, if_pos h2, if_pos h3]
        exact hperm
      · have h3 : ¬p.1 = k := fun e => h2 (h1.symm.trans e)
        simp only [treeLookup, treeUpdate, if_pos h1, if_neg h2, if_neg h3]
        exact List.Perm.refl _
    · by_cases h3 : p.1 = k
      · simp only [treeLookup, treeUpdate, if_neg h1, if_pos h3]
        exact List.Perm.refl _
      · simp only [treeLookup, if_neg h1] at hperm
        simp only [treeLookup, treeUpdate, if_neg h1, if_neg h3]
        exact ih n k hperm

theorem treeUpdate_sort_lookup (t : List (Str × List Str)) (n k : Str) :
    (treeLookup (treeUpdate t n (sortStrs (treeLookup t n))) k).Perm (treeLookup t k) :=
  treeUpdate_perm_lookup _ t n k (sortStrs_perm _)

theorem effTree_pos (deps : List Dependency) (cc : List (Str × List Str))
    (h : cc.length > 0) : effTree deps cc = cc := by
  unfold effTree; rw [if_pos h]

theorem effTree_neg (deps : List Dependency) (cc : List (Str × List Str))
    (h : ¬cc.length > 0) : effTree deps cc = buildTreePure deps := by
  unfold effTree; rw [if_neg h]

theorem renderNodeF_mem (n : Nat) (deps : List Dependency) (node pfx : Str) (isLast : Bool)
    (v : List Str) (cc : List (Str × List Str)) (h : node ∈ v) :
    renderNodeF (n + 1) deps node pfx isLast v cc =
      (pfx ++ connectorFor pfx isLast ++ node ++ ['\n'], v, cc) := by
  simp [renderNodeF, h]

theorem renderNodeF_step (n : Nat) (deps : List Dependency) (node pfx : Str) (isLast : Bool)
    (v : List Str) (cc : List (Str × List Str)) (h : ¬node ∈ v) :
    renderNodeF (n + 1) deps node pfx isLast v cc =
      (pfx ++ connectorFor pfx isLast ++ node ++ ['\n'] ++
          (renderChildren (fun c l w d => renderNodeF n deps c (childPfx pfx isLast) l w d)
            (sortStrs (treeLookup (effTree deps cc) node)) (v ++ [node])
            (treeUpdate (effTree deps cc) node
              (sortStrs (treeLookup (effTree deps cc) node)))).1,
        (renderChildren (fun c l w d => renderNodeF n deps c (childPfx pfx isLast) l w d)
          (sortStrs (treeLookup (effTree deps cc) node)) (v ++ [node])
          (treeUpdate (effTree deps cc) node
            (sortStrs (treeLookup (effTree deps cc) node)))).2) := by
  simp [renderNodeF, h]

theorem renderChildren_nil
    (f : Str → Bool → List Str → List (Str × List Str) →
      Str × List Str × List (Str × List Str)) (v : List Str) (cc : List (Str × List Str)) :
    renderChildren f [] v cc = ([], v, cc) := rfl

theorem renderChildren_cons
    (f : Str → Bool → List Str → List (Str × List Str) →
      Str × List Str × List (Str × List Str)) (c : Str) (cs : List Str) (v : List Str)
    (cc : List (Str × List Str)) :
    renderChildren f (c :: cs) v cc =
      ((f c cs.isEmpty v cc).1 ++
          (renderChildren f cs (f c cs.isEmpty v cc).2.1 (f c cs.isEmpty v cc).2.2).1,
        (renderChildren f cs (f c cs.isEmpty v cc).2.1 (f c cs.isEmpty v cc).2.2).2) := rfl

theorem renderChildren_visited
    (f : Str → Bool → List Str → List (Str × List Str) →
      Str × List Str × List (Str × List Str))
    (hf : ∀ c l v cc, v ⊆ (f c l v cc).2.1) :
    ∀ (cs : List Str) (v : List Str) (cc : List (Str × List Str)),
      v ⊆ (renderChildren f cs v cc).2.1 := by
  intro cs
  induction cs with
  | nil => intro v cc; exact fun a ha => ha
  | cons c cs ih =>
    intro v cc
    rw [renderChildren_cons]
    exact (hf c cs.isEmpty v cc).trans (ih _ _)

theorem renderNodeF_visited :
    ∀ (fuel : Nat) (deps : List Dependency) (node pfx : Str) (isLast : Bool) (v : List Str)
      (cc : List (Str × List Str)),
      v ⊆ (renderNodeF fuel deps node pfx isLast v cc).2.1 := by
  intro fuel
  induction fuel with
  | zero => intro deps node pfx isLast v cc; exact fun a ha => ha
  | succ n ih =>
    intro deps node pfx isLast v cc
    by_cases h : node ∈ v
    · rw [renderNodeF_mem n deps node pfx isLast v cc h]
      exact fun a ha => ha
    · rw [renderNodeF_step n deps node pfx isLast v cc h]
      refine List.Subset.trans ?_
        (renderChildren_visited _ (fun c l w d => ih deps c (childPfx pfx isLast) l w d) _ _ _)
      exact List.subset_append_left v [node]

theorem renderChildren_cache (deps : List Dependency)
    (f : Str → Bool → List Str → List (Str × List Str) →
      Str × List Str × List (Str × List Str))
    (hf : ∀ c l w d s, s ∈ cacheStrings (f c l w d).2.2 →
      s ∈ depStrings deps ∨ s ∈ cacheStrings d) :
    ∀ (cs : List Str) (v : List Str) (cc : List (Str × List Str)) (s : Str),
      s ∈ cacheStrings (renderChildren f cs v cc).2.2 →
      s ∈ depStrings deps ∨ s ∈ cacheStrings cc := by
  intro cs
  induction cs with
  | nil => intro v cc s hs; exact Or.inr hs
  | cons c cs ih =>
    intro v cc s hs
    rw [renderChildren_cons] at hs
    rcases ih _ _ s hs with h | h
    · exact Or.inl h
    · exact hf c cs.isEmpty v cc s h

theorem renderNodeF_cache :
    ∀ (fuel : Nat) (deps : List Dependency) (node pfx : Str) (isLast : Bool) (v : List Str)
      (cc : List (Str × List Str)) (s : Str),
      s ∈ cacheStrings (renderNodeF fuel deps node pfx isLast v cc).2.2 →
      s ∈ depStrings deps ∨ s ∈ cacheStrings cc := by
  intro fuel
  induction fuel with
  | zero => intro deps node pfx isLast v cc s hs; exact Or.inr hs
  | succ n ih =>
    intro deps node pfx isLast v cc s hs
    by_cases h : node ∈ v
    · rw [renderNodeF_mem n deps node pfx isLast v cc h] at hs
      exact Or.inr hs
    · rw [renderNodeF_step n deps node pfx isLast v cc h] at hs
      rcases renderChildren_cache deps _
        (fun c l w d s' => ih deps c (childPfx pfx isLast) l w d s') _ _ _ s hs with h1 | h1
      · exact Or.inl h1
      · rcases cacheStrings_treeUpdate _ _ _ s h1 with h2 | h2
        · exact cacheStrings_effTree deps cc s h2
        · have h3 : s ∈ treeLookup (effTree deps cc) node := (sortStrs_perm _).subset h2
          exact cacheStrings_effTree deps cc s (treeLookup_sub _ _ s h3)

theorem effTree_treeUpdate_perm (deps : List Dependency) (cc : List (Str × List Str))
    (node k : Str) (v : List Str) (hperm : v.Perm (treeLookup (effTree deps cc) node)) :
    (treeLookup (effTree deps (treeUpdate (effTree deps cc) node v)) k).Perm
      (treeLookup (effTree deps cc) k) := by
  by_cases h : (effTree deps cc).length > 0
  · have h2 : (treeUpdate (effTree deps cc) node v).length > 0 := by
      rw [treeUpdate_length]; exact h
    rw [effTree_pos _ _ h2]
    exact treeUpdate_perm_lookup v _ node k hperm
  · have ht : effTree deps cc = [] :=
      List.length_eq_zero.mp (Nat.eq_zero_of_not_pos h)
    have hb : buildTreePure deps = [] := by
      by_cases hc : cc.length > 0
      · rw [effTree_pos deps cc hc] at ht
        rw [ht] at hc
        simp at hc
      · rw [effTree_neg deps cc hc] at ht
        exact ht
    have hv : v = [] := by
      rw [ht] at hperm
      exact hperm.eq_nil
    rw [ht, hv]
    show (treeLookup (effTree deps []) k).Perm (treeLookup ([] : List (Str × List Str)) k)
    rw [effTree_neg deps [] (by simp), hb]

theorem effTree_treeUpdate_sort (deps : List Dependency) (cc : List (Str × List Str))
    (node k : Str) :
    (treeLookup (effTree deps (treeUpdate (effTree deps cc) node
        (sortStrs (treeLookup (effTree deps cc) node)))) k).Perm
      (treeLookup (effTree deps cc) k) :=
  effTree_treeUpdate_perm deps cc node k _ (sortStrs_perm _)

theorem renderChildren_lookup_perm (deps : List Dependency)
    (f : Str → Bool → List Str → List (Str × List Str) →
      Str × List Str × List (Str × List Str))
    (hf : ∀ c l w d k, (treeLookup (effTree deps (f c l w d).2.2) k).Perm
      (treeLookup (effTree deps d) k)) :
    ∀ (cs : List Str) (v : List Str) (cc : List (Str × List Str)) (k : Str),
      (treeLookup (effTree deps (renderChildren f cs v cc).2.2) k).Perm
        (treeLookup (effTree deps cc) k) := by
  intro cs
  induction cs with
  | nil => intro v cc k; exact List.Perm.refl _
  | cons c cs ih =>
    intro v cc k
    rw [renderChildren_cons]
    exact (ih _ _ k).trans (hf c cs.isEmpty v cc k)

theorem renderNodeF_lookup_perm :
    ∀ (fuel : Nat) (deps : List Dependency) (node pfx : Str) (isLast : Bool) (v : List Str)
      (cc : List (Str × List Str)) (k : Str),
      (treeLookup (effTree deps (renderNodeF fuel deps node pfx isLast v cc).2.2) k).Perm
        (treeLookup (effTree deps cc) k) := by
  intro fuel
  induction fuel with
  | zero => intro deps node pfx isLast v cc k; exact List.Perm.refl _
  | succ n ih =>
    intro deps node pfx isLast v cc k
    by_cases h : node ∈ v
    · rw [renderNodeF_mem n deps node pfx isLast v cc h]
    · rw [renderNodeF_step n deps node pfx isLast v cc h]
      exact (renderChildren_lookup_perm deps _
        (fun c l w d k' => ih deps c (childPfx pfx isLast) l w d k') _ _ _ k).trans
        (effTree_treeUpdate_sort deps cc node k)

/-! ### Fuel-independence of the plaintext traversal (termination) -/

theorem toFinset_append_node (v : List Str) (node : Str) :
    (v ++ [node]).toFinset = insert node v.toFinset := by
  ext a
  simp [List.toFinset_append, or_comm]

theorem fuelBound_child (deps : List Dependency) (A : Finset Str) (c : Str)
    (c₁ : List (Str × List Str)) (v₁ : List Str)
    (hdep : ∀ s ∈ depStrings deps, s ∈ A) (hc : c ∈ A)
    (hc₁ : ∀ s ∈ cacheStrings c₁, s ∈ A) :
    fuelBound deps c₁ c v₁ ≤ (A \ v₁.toFinset).card + 1 := by
  unfold fuelBound
  have hsub : insert c (depStrings deps ++ cacheStrings c₁).toFinset ⊆ A := by
    intro s hs
    rcases Finset.mem_insert.mp hs with h | h
    · exact h ▸ hc
    · rcases List.mem_append.mp (List.mem_toFinset.mp h) with h2 | h2
      · exact hdep s h2
      · exact hc₁ s h2
  have hle := Finset.card_le_card (Finset.sdiff_subset_sdiff hsub
    (Finset.Subset.refl v₁.toFinset))
  omega

theorem toFinset_mono_sub {v₁ v₂ : List Str} (h : v₁ ⊆ v₂) : v₁.toFinset ⊆ v₂.toFinset := by
  intro a ha
  exact List.mem_toFinset.mpr (h (List.mem_toFinset.mp ha))

theorem renderChildren_stable (deps : List Dependency) (k j : Nat) (newPfx : Str)
    (A : Finset Str) (hdep : ∀ s ∈ depStrings deps, s ∈ A)
    (ih : ∀ (f₂ : Nat) (node pfx : Str) (isLast : Bool) (v : List Str)
      (cc : List (Str × List Str)),
      fuelBound deps cc node v ≤ k → fuelBound deps cc node v ≤ f₂ →
      renderNodeF k deps node pfx isLast v cc = renderNodeF f₂ deps node pfx isLast v cc) :
    ∀ (cs v₁ : List Str) (c₁ : List (Str × List Str)),
      (∀ c ∈ cs, c ∈ A) → (∀ s ∈ cacheStrings c₁, s ∈ A) →
      (A \ v₁.toFinset).card + 1 ≤ k → (A \ v₁.toFinset).card + 1 ≤ j →
      renderChildren (fun c l w d => renderNodeF k deps c newPfx l w d) cs v₁ c₁ =
        renderChildren (fun c l w d => renderNodeF j deps c newPfx l w d) cs v₁ c₁ := by
  intro cs
  induction cs with
  | nil => intro v₁ c₁ _ _ _ _; rfl
  | cons c cs ihc =>
    intro v₁ c₁ hcs hc₁ hk hj
    have hcb := fuelBound_child deps A c c₁ v₁ hdep (hcs c (List.mem_cons_self c cs)) hc₁
    have hhead : renderNodeF k deps c newPfx cs.isEmpty v₁ c₁ =
        renderNodeF j deps c newPfx cs.isEmpty v₁ c₁ :=
      ih j c newPfx cs.isEmpty v₁ c₁ (le_trans hcb hk) (le_trans hcb hj)
    rw [renderChildren_cons, renderChildren_cons, ← hhead]
    have hcs' : ∀ c' ∈ cs, c' ∈ A := fun c' hmem => hcs c' (List.mem_cons_of_mem c hmem)
    have hc₂ : ∀ s ∈ cacheStrings
        (renderNodeF k deps c newPfx cs.isEmpty v₁ c₁).2.2, s ∈ A := by
      intro s hs
      rcases renderNodeF_cache k deps c newPfx cs.isEmpty v₁ c₁ s hs with h | h
      · exact hdep s h
      · exact hc₁ s h
    have hvsub : v₁.toFinset ⊆
        (renderNodeF k deps c newPfx cs.isEmpty v₁ c₁).2.1.toFinset :=
      toFinset_mono_sub (renderNodeF_visited k deps c newPfx cs.isEmpty v₁ c₁)
    have hcard : ((A \ (renderNodeF k deps c newPfx cs.isEmpty v₁ c₁).2.1.toFinset).card) ≤
        (A \ v₁.toFinset).card :=
      Finset.card_le_card (Finset.sdiff_subset_sdiff (Finset.Subset.refl A) hvsub)
    have hrest := ihc (renderNodeF k deps c newPfx cs.isEmpty v₁ c₁).2.1
      (renderNodeF k deps c newPfx cs.isEmpty v₁ c₁).2.2 hcs' hc₂
      (by omega) (by omega)
    rw [hrest]

theorem renderNodeF_stable (deps : List Dependency) :
    ∀ (f₁ f₂ : Nat) (node pfx : Str) (isLast : Bool) (v : List Str)
      (cc : List (Str × List Str)),
      fuelBound deps cc node v ≤ f₁ → fuelBound deps cc node v ≤ f₂ →
      renderNodeF f₁ deps node pfx isLast v cc = renderNodeF f₂ deps node pfx isLast v cc := by
  intro f₁
  induction f₁ with
  | zero =>
    intro f₂ node pfx isLast v cc h₁ _
    exact absurd h₁ (Nat.not_succ_le_zero _)
  | succ k ih =>
    intro f₂ node pfx isLast v cc h₁ h₂
    cases f₂ with
    | zero => exact absurd h₂ (Nat.not_succ_le_zero _)
    | succ j =>
      by_cases hv : node ∈ v
      · rw [renderNodeF_mem k deps node pfx isLast v cc hv,
          renderNodeF_mem j deps node pfx isLast v cc hv]
      · rw [renderNodeF_step k deps node pfx isLast v cc hv,
          renderNodeF_step j deps node pfx isLast v cc hv]
        unfold fuelBound at h₁ h₂
        set A : Finset Str :=
          insert node (depStrings deps ++ cacheStrings cc).toFinset with hA
        have hdep : ∀ s ∈ depStrings deps, s ∈ A := by
          intro s hs
          exact Finset.mem_insert_of_mem
            (List.mem_toFinset.mpr (List.mem_append.mpr (Or.inl hs)))
        have hccA : ∀ s ∈ cacheStrings cc, s ∈ A := by
          intro s hs
          exact Finset.mem_insert_of_mem
            (List.mem_toFinset.mpr (List.mem_append.mpr (Or.inr hs)))
        have hcs : ∀ c ∈ sortStrs (treeLookup (effTree deps cc) node), c ∈ A := by
          intro c hmem
          have h2 : c ∈ treeLookup (effTree deps cc) node := (sortStrs_perm _).subset hmem
          rcases cacheStrings_effTree deps cc c (treeLookup_sub _ _ c h2) with h3 | h3
          · exact hdep c h3
          · exact hccA c h3
        have hcupd : ∀ s ∈ cacheStrings (treeUpdate (effTree deps cc) node
            (sortStrs (treeLookup (effTree deps cc) node))), s ∈ A := by
          intro s hs
          rcases cacheStrings_treeUpdate _ _ _ s hs with h3 | h3
          · rcases cacheStrings_effTree deps cc s h3 with h4 | h4
            · exact hdep s h4
            · exact hccA s h4
          · exact hcs s h3
        have hnodeA : node ∈ A := Finset.mem_insert_self _ _
        have hnodev : node ∉ v.toFinset := fun hmem => hv (List.mem_toFinset.mp hmem)
        have herase : A \ (v ++ [node]).toFinset = (A \ v.toFinset).erase node := by
          rw [toFinset_append_node]
          ext a
          simp only [Finset.mem_sdiff, Finset.mem_insert, Finset.mem_erase, not_or]
          constructor
          · rintro ⟨ha, hne, hnv⟩
            exact ⟨hne, ha, hnv⟩
          · rintro ⟨hne, ha, hnv⟩
            exact ⟨ha, hne, hnv⟩
        have hpos : 0 < (A \ v.toFinset).card :=
          Finset.card_pos.mpr ⟨node, Finset.mem_sdiff.mpr ⟨hnodeA, hnodev⟩⟩
        have hcardk : (A \ (v ++ [node]).toFinset).card + 1 ≤ k := by
          rw [herase, Finset.card_erase_of_mem (Finset.mem_sdiff.mpr ⟨hnodeA, hnodev⟩)]
          omega
        have hcardj : (A \ (v ++ [node]).toFinset).card + 1 ≤ j := by
          rw [herase, Finset.card_erase_of_mem (Finset.mem_sdiff.mpr ⟨hnodeA, hnodev⟩)]
          omega
        have hch := renderChildren_stable deps k j (childPfx pfx isLast) A hdep ih
          (sortStrs (treeLookup (effTree deps cc) node)) (v ++ [node])
          (treeUpdate (effTree deps cc) node
            (sortStrs (treeLookup (effTree deps cc) node)))
          hcs hcupd hcardk hcardj
        rw [hch]

theorem fuelBound_le_plaintextFuel (dg : DependencyGraph) :
    fuelBound dg.Dependencies dg.tree dg.MainModule.String [] ≤ plaintextFuel dg := by
  unfold fuelBound plaintextFuel
  have h1 : ([] : List Str).toFinset = ∅ := rfl
  rw [h1, Finset.sdiff_empty, ← List.toFinset_cons]
  have h2 := List.toFinset_card_le
    (dg.MainModule.String :: (depStrings dg.Dependencies ++ cacheStrings dg.tree))
  simp only [List.length_cons, List.length_append] at h2 ⊢
  omega

/-- C4: the plaintext tree traversal terminates on every graph, cyclic or
not: the fuel-indexed model of `renderNode` gives one and the same result
for every fuel at least `fuelBound` (first conjunct — the Go recursion is
bounded), a node encountered a second time is printed once more as a
single line and its children are not recursed into, the visited set and
cache being returned unchanged (second conjunct), and `PlaintextRender`'s
own fuel is sufficient, so any larger fuel reproduces its output (third
conjunct). -/
theorem C4_renderNode_termination :
    (∀ (deps : List Dependency) (cache : List (Str × List Str)) (node pfx : Str)
      (isLast : Bool) (visited : List Str) (f₁ f₂ : Nat),
      fuelBound deps cache node visited ≤ f₁ → fuelBound deps cache node visited ≤ f₂ →
      renderNodeF f₁ deps node pfx isLast visited cache =
        renderNodeF f₂ deps node pfx isLast visited cache) ∧
    (∀ (deps : List Dependency) (cache : List (Str × List Str)) (node pfx : Str)
      (isLast : Bool) (visited : List Str) (fuel : Nat), node ∈ visited →
      renderNodeF (fuel + 1) deps node pfx isLast visited cache =
        (pfx ++ connectorFor pfx isLast ++ node ++ ['\n'], visited, cache)) ∧
    (∀ (dg : DependencyGraph) (f : Nat), plaintextFuel dg ≤ f →
      renderNodeF f dg.Dependencies dg.MainModule.String [] true [] dg.tree =
        renderNodeF (plaintextFuel dg) dg.Dependencies dg.MainModule.String [] true []
          dg.tree ∧
      (renderNodeF f dg.Dependencies dg.MainModule.String [] true [] dg.tree).1 =
        (PlaintextRender dg).1) := by
  refine ⟨?_, ?_, ?_⟩
  · intro deps cache node pfx isLast visited f₁ f₂ h₁ h₂
    exact renderNodeF_stable deps f₁ f₂ node pfx isLast visited cache h₁ h₂
  · intro deps cache node pfx isLast visited fuel h
    exact renderNodeF_mem fuel deps node pfx isLast visited cache h
  · intro dg f hf
    have hs := renderNodeF_stable dg.Dependencies f (plaintextFuel dg)
      dg.MainModule.String [] true [] dg.tree
      (le_trans (fuelBound_le_plaintextFuel dg) hf) (fuelBound_le_plaintextFuel dg)
    exact ⟨hs, by rw [hs]; rfl⟩

/-- Witness for C4 on the concrete cyclic graph `gCycle` (`a → b → a`):
fuel 3 already stabilizes the traversal from the root, the revisit of `a`
below `b` prints one line and stops, and fuel 20 reproduces the rendered
output. -/
theorem C4_renderNode_termination_witness :
    renderNodeF 3 gCycle.Dependencies (S "a") [] true [] [] =
      renderNodeF 9 gCycle.Dependencies (S "a") [] true [] [] ∧
    renderNodeF 5 gCycle.Dependencies (S "a") (S "  ") true [S "a"] [] =
      (S "  " ++ connectorFor (S "  ") true ++ S "a" ++ ['\n'], [S "a"], []) ∧
    (renderNodeF 20 gCycle.Dependencies gCycle.MainModule.String [] true []
      gCycle.tree).1 = (PlaintextRender gCycle).1 :=
  ⟨C4_renderNode_termination.1 gCycle.Dependencies [] (S "a") [] true [] 3 9
      (by decide) (by decide),
    C4_renderNode_termination.2.1 gCycle.Dependencies [] (S "a") (S "  ") true [S "a"] 4
      (by decide),
    (C4_renderNode_termination.2.2 gCycle 20 (by decide)).2⟩

/-! ### Frame effect of rendering (claim C6) -/

theorem renderChildren_congr (deps : List Dependency)
    (f g : Str → Bool → List Str → List (Str × List Str) →
      Str × List Str × List (Str × List Str))
    (hfg : ∀ (c : Str) (l : Bool) (w : List Str) (d₁ d₂ : List (Str × List Str)),
      (∀ k, sortStrs (treeLookup (effTree deps d₁) k) =
        sortStrs (treeLookup (effTree deps d₂) k)) →
      (f c l w d₁).1 = (g c l w d₂).1 ∧ (f c l w d₁).2.1 = (g c l w d₂).2.1 ∧
      (∀ k, sortStrs (treeLookup (effTree deps (f c l w d₁).2.2) k) =
        sortStrs (treeLookup (effTree deps (g c l w d₂).2.2) k))) :
    ∀ (cs w : List Str) (d₁ d₂ : List (Str × List Str)),
      (∀ k, sortStrs (treeLookup (effTree deps d₁) k) =
        sortStrs (treeLookup (effTree deps d₂) k)) →
      (renderChildren f cs w d₁).1 = (renderChildren g cs w d₂).1 ∧
      (renderChildren f cs w d₁).2.1 = (renderChildren g cs w d₂).2.1 ∧
      (∀ k, sortStrs (treeLookup (effTree deps (renderChildren f cs w d₁).2.2) k) =
        sortStrs (treeLookup (effTree deps (renderChildren g cs w d₂).2.2) k)) := by
  intro cs
  induction cs with
  | nil => intro w d₁ d₂ h; exact ⟨rfl, rfl, h⟩
  | cons c cs ih =>
    intro w d₁ d₂ h
    obtain ⟨ho, hw, hR⟩ := hfg c cs.isEmpty w d₁ d₂ h
    obtain ⟨ho₂, hw₂, hR₂⟩ := ih (f c cs.isEmpty w d₁).2.1 (f c cs.isEmpty w d₁).2.2
      (g c cs.isEmpty w d₂).2.2 hR
    simp only [renderChildren_cons]
    refine ⟨?_, ?_, ?_⟩
    · rw [ho, ← hw, ho₂]
    · rw [← hw, hw₂]
    · intro k
      rw [← hw]
      exact hR₂ k

theorem renderNodeF_congr (deps : List Dependency) :
    ∀ (fuel : Nat) (node pfx : Str) (isLast : Bool) (v : List Str)
      (c₁ c₂ : List (Str × List Str)),
      (∀ k, sortStrs (treeLookup (effTree deps c₁) k) =
        sortStrs (treeLookup (effTree deps c₂) k)) →
      (renderNodeF fuel deps node pfx isLast v c₁).1 =
        (renderNodeF fuel deps node pfx isLast v c₂).1 ∧
      (renderNodeF fuel deps node pfx isLast v c₁).2.1 =
        (renderNodeF fuel deps node pfx isLast v c₂).2.1 ∧
      (∀ k, sortStrs (treeLookup (effTree deps
          (renderNodeF fuel deps node pfx isLast v c₁).2.2) k) =
        sortStrs (treeLookup (effTree deps
          (renderNodeF fuel deps node pfx isLast v c₂).2.2) k)) := by
  intro fuel
  induction fuel with
  | zero => intro node pfx isLast v c₁ c₂ h; exact ⟨rfl, rfl, h⟩
  | succ n ih =>
    intro node pfx isLast v c₁ c₂ h
    by_cases hv : node ∈ v
    · rw [renderNodeF_mem n deps node pfx isLast v c₁ hv,
        renderNodeF_mem n deps node pfx isLast v c₂ hv]
      exact ⟨rfl, rfl, h⟩
    · rw [renderNodeF_step n deps node pfx isLast v c₁ hv,
        renderNodeF_step n deps node pfx isLast v c₂ hv]
      have hsorted : sortStrs (treeLookup (effTree deps c₁) node) =
          sortStrs (treeLookup (effTree deps c₂) node) := h node
      rw [← hsorted]
      have hp₂ : (sortStrs (treeLookup (effTree deps c₁) node)).Perm
          (treeLookup (effTree deps c₂) node) := by
        rw [hsorted]; exact sortStrs_perm _
      have hupd : ∀ k, sortStrs (treeLookup (effTree deps
          (treeUpdate (effTree deps c₁) node
            (sortStrs (treeLookup (effTree deps c₁) node)))) k) =
          sortStrs (treeLookup (effTree deps
            (treeUpdate (effTree deps c₂) node
              (sortStrs (treeLookup (effTree deps c₁) node)))) k) := by
        intro k
        rw [sortStrs_congr (effTree_treeUpdate_sort deps c₁ node k),
          sortStrs_congr (effTree_treeUpdate_perm deps c₂ node k _ hp₂)]
        exact h k
      obtain ⟨ho, hw, hR⟩ := renderChildren_congr deps
        (fun c l w d => renderNodeF n deps c (childPfx pfx isLast) l w d)
        (fun c l w d => renderNodeF n deps c (childPfx pfx isLast) l w d)
        (fun c l w d₁ d₂ hd => ih c (childPfx pfx isLast) l w d₁ d₂ hd)
        (sortStrs (treeLookup (effTree deps c₁) node)) (v ++ [node])
        (treeUpdate (effTree deps c₁) node
          (sortStrs (treeLookup (effTree deps c₁) node)))
        (treeUpdate (effTree deps c₂) node
          (sortStrs (treeLookup (effTree deps c₁) node)))
        hupd
      exact ⟨by rw [ho], hw, hR⟩

theorem getTree_eq_effTree (dg : DependencyGraph) :
    (GetTree dg).1 = effTree dg.Dependencies dg.tree := by
  show (buildTree dg).tree = _
  unfold buildTree effTree
  by_cases h : dg.tree.length > 0
  · rw [if_pos h, if_pos h]
  · rw [if_neg h, if_neg h]

theorem effTree_of_cacheOK (dg : DependencyGraph) (h : cacheOK dg) :
    effTree dg.Dependencies dg.tree = buildTreePure dg.Dependencies := by
  rcases h with h | h
  · rw [h, effTree_neg _ _ (by simp)]
  · by_cases hl : dg.tree.length > 0
    · rw [effTree_pos _ _ hl, h]
    · rw [effTree_neg _ _ hl]

/-- C6 is refuted as stated: on the graph with root `a` and edges `a → c`
then `a → b`, the adjacency list of `a` reads `[c, b]` before a plaintext
render and `[b, c]` after it — `sort.Strings` inside `renderNode` sorts
the cached slice in place, so the per-key order of the adjacency mapping
is not preserved by `Render`. -/
theorem C6_counterexample :
    treeLookup (GetTree gACB).1 mA.String = [mC.String, mB.String] ∧
    treeLookup (GetTree ((PlaintextRender gACB).2)).1 mA.String =
      [mB.String, mC.String] ∧
    ¬treeLookup (GetTree ((PlaintextRender gACB).2)).1 mA.String =
      treeLookup (GetTree gACB).1 mA.String := by decide

/-- C6 (amended, as the counterexample forces): rendering leaves the root
module and the dependency sequence unchanged, and every renderer's output
is a function of those two fields alone; the plaintext renderer may
however reorder (sort) the cached adjacency list of each visited node in
place, preserving each list as a multiset, and rendering the mutated graph
again — by the plaintext renderer or any of the pure ones — produces the
same output as rendering a fresh equal graph. -/
theorem C6_render_frame (dg : DependencyGraph) :
    (PlaintextRender dg).2.MainModule = dg.MainModule ∧
    (PlaintextRender dg).2.Dependencies = dg.Dependencies ∧
    (∀ k, (treeLookup (GetTree ((PlaintextRender dg).2)).1 k).Perm
      (treeLookup (GetTree dg).1 k)) ∧
    (PlaintextRender ((PlaintextRender dg).2)).1 = (PlaintextRender dg).1 ∧
    (cacheOK dg →
      (PlaintextRender dg).1 =
        (PlaintextRender ⟨dg.MainModule, dg.Dependencies, []⟩).1) ∧
    (∀ g₁ g₂ : DependencyGraph, g₁.MainModule = g₂.MainModule →
      g₁.Dependencies = g₂.Dependencies →
      GraphvizRender g₁ = GraphvizRender g₂ ∧ generateNodes g₁ = generateNodes g₂ ∧
      generateLinks g₁ = generateLinks g₂ ∧
      ∀ order, MermaidRender g₁ order = MermaidRender g₂ order) := by
  refine ⟨rfl, rfl, ?_, ?_, ?_, ?_⟩
  · intro k
    rw [getTree_eq_effTree, getTree_eq_effTree]
    exact renderNodeF_lookup_perm (plaintextFuel dg) dg.Dependencies
      dg.MainModule.String [] true [] dg.tree k
  · have hrel : ∀ k, sortStrs (treeLookup (effTree dg.Dependencies
        ((PlaintextRender dg).2).tree) k) =
        sortStrs (treeLookup (effTree dg.Dependencies dg.tree) k) :=
      fun k => sortStrs_congr (renderNodeF_lookup_perm (plaintextFuel dg)
        dg.Dependencies dg.MainModule.String [] true [] dg.tree k)
    have hb' : fuelBound dg.Dependencies ((PlaintextRender dg).2).tree
        dg.MainModule.String [] ≤ plaintextFuel ((PlaintextRender dg).2) :=
      fuelBound_le_plaintextFuel ((PlaintextRender dg).2)
    have h1 : renderNodeF (plaintextFuel ((PlaintextRender dg).2)) dg.Dependencies
        dg.MainModule.String [] true [] ((PlaintextRender dg).2).tree =
        renderNodeF (plaintextFuel dg + plaintextFuel ((PlaintextRender dg).2))
          dg.Dependencies dg.MainModule.String [] true []
          ((PlaintextRender dg).2).tree :=
      renderNodeF_stable dg.Dependencies _ _ _ _ _ _ _ hb'
        (le_trans hb' (Nat.le_add_left _ _))
    have h2 : renderNodeF (plaintextFuel dg) dg.Dependencies
        dg.MainModule.String [] true [] dg.tree =
        renderNodeF (plaintextFuel dg + plaintextFuel ((PlaintextRender dg).2))
          dg.Dependencies dg.MainModule.String [] true [] dg.tree :=
      renderNodeF_stable dg.Dependencies _ _ _ _ _ _ _
        (fuelBound_le_plaintextFuel dg)
        (le_trans (fuelBound_le_plaintextFuel dg) (Nat.le_add_right _ _))
    have h3 := (renderNodeF_congr dg.Dependencies
      (plaintextFuel dg + plaintextFuel ((PlaintextRender dg).2))
      dg.MainModule.String [] true [] ((PlaintextRender dg).2).tree dg.tree hrel).1
    show (renderNodeF (plaintextFuel ((PlaintextRender dg).2)) dg.Dependencies
      dg.MainModule.String [] true [] ((PlaintextRender dg).2).tree).1 =
      (renderNodeF (plaintextFuel dg) dg.Dependencies dg.MainModule.String [] true []
        dg.tree).1
    rw [h1, h2]
    exact h3
  · intro hok
    have hrel : ∀ k, sortStrs (treeLookup (effTree dg.Dependencies dg.tree) k) =
        sortStrs (treeLookup (effTree dg.Dependencies
          ([] : List (Str × List Str))) k) := by
      intro k
      rw [effTree_of_cacheOK dg hok, effTree_neg _ _ (by simp)]
    have hfr : fuelBound dg.Dependencies ([] : List (Str × List Str))
        dg.MainModule.String [] ≤
        plaintextFuel ⟨dg.MainModule, dg.Dependencies, []⟩ :=
      fuelBound_le_plaintextFuel ⟨dg.MainModule, dg.Dependencies, []⟩
    have h1 : renderNodeF (plaintextFuel dg) dg.Dependencies
        dg.MainModule.String [] true [] dg.tree =
        renderNodeF (plaintextFuel dg +
            plaintextFuel ⟨dg.MainModule, dg.Dependencies, []⟩)
          dg.Dependencies dg.MainModule.String [] true [] dg.tree :=
      renderNodeF_stable dg.Dependencies _ _ _ _ _ _ _
        (fuelBound_le_plaintextFuel dg)
        (le_trans (fuelBound_le_plaintextFuel dg) (Nat.le_add_right _ _))
    have h2 : renderNodeF (plaintextFuel ⟨dg.MainModule, dg.Dependencies, []⟩)
        dg.Dependencies dg.MainModule.String [] true []
        ([] : List (Str × List Str)) =
        renderNodeF (plaintextFuel dg +
            plaintextFuel ⟨dg.MainModule, dg.Dependencies, []⟩)
          dg.Dependencies dg.MainModule.String [] true []
          ([] : List (Str × List Str)) :=
      renderNodeF_stable dg.Dependencies _ _ _ _ _ _ _ hfr
        (le_trans hfr (Nat.le_add_left _ _))
    have h3 := (renderNodeF_congr dg.Dependencies
      (plaintextFuel dg + plaintextFuel ⟨dg.MainModule, dg.Dependencies, []⟩)
      dg.MainModule.String [] true [] dg.tree ([] : List (Str × List Str)) hrel).1
    show (renderNodeF (plaintextFuel dg) dg.Dependencies dg.MainModule.String []
      true [] dg.tree).1 =
      (renderNodeF (plaintextFuel ⟨dg.MainModule, dg.Dependencies, []⟩)
        dg.Dependencies dg.MainModule.String [] true []
        ([] : List (Str × List Str))).1
    rw [h1, h2]
    exact h3
  · intro g₁ g₂ h₁ h₂
    cases g₁ with
    | mk m₁ d₁ t₁ =>
      cases g₂ with
      | mk m₂ d₂ t₂ =>
        obtain rfl : m₁ = m₂ := h₁
        obtain rfl : d₁ = d₂ := h₂
        exact ⟨rfl, rfl, rfl, fun order => rfl⟩

/-- Witness for C6 at `gACB`: its cache is coherent (freshly invalidated),
so its plaintext render equals the render of the equal fresh graph, and
the pure-renderer congruence applies to it. -/
theorem C6_render_frame_witness :
    (PlaintextRender gACB).1 =
      (PlaintextRender ⟨gACB.MainModule, gACB.Dependencies, []⟩).1 ∧
    GraphvizRender gACB = GraphvizRender gACB :=
  ⟨(C6_render_frame gACB).2.2.2.2.1 (Or.inl rfl),
    ((C6_render_frame gACB).2.2.2.2.2 gACB gACB rfl rfl).1⟩

end Tangled
